import Mathlib

/-!
Verification of the channel-identity reconciliation engine of the `epg`
repository (files `epg_generator.py`, `epg_generator_auto.py`,
`build_epg_br.py`).

The Python sources are shallowly embedded below: identifiers are `String`,
timestamps are `Int` seconds (order-isomorphic to the parsed timezone-aware
datetimes, which the engine only compares and shifts by whole hours), Python
floats for similarity thresholds are exact rationals `ℚ`, and Python dicts
are association lists with first-occurrence key order, matching CPython's
insertion-order semantics.  Library calls made by the sources
(`str.lower`, `unicodedata` NFD, `difflib.SequenceMatcher.ratio`) are
embedded by their documented algorithms, restricted where noted to the
character ranges the programs encounter.
-/

namespace Epg

/-! ## Character helpers -/

/-- ASCII lower-case letter or digit, the character class `[a-z0-9]` used by
the normalizers. -/
def isAsciiLowerAlnum (c : Char) : Bool :=
  (('a' ≤ c) && (c ≤ 'z')) || (('0' ≤ c) && (c ≤ '9'))

/-- Whitespace class of Python's `str.strip` and of `\s` in the regexes
(ASCII part: space, tab, newline, carriage return, vertical tab, form feed). -/
def isPySpace (c : Char) : Bool :=
  c = ' ' || c = '\t' || c = '\n' || c = '\x0d' || c = '\x0b' || c = '\x0c'

/-- Per-character model of Python `str.lower` on the Latin-1 range: maps
`A`-`Z` and the accented capitals `À`-`Þ` (except `×`) to their lower-case
forms 32 code points higher; identity elsewhere. -/
def pyLowerChar (c : Char) : Char :=
  if 'A' ≤ c ∧ c ≤ 'Z' then Char.ofNat (c.toNat + 32)
  else if 0xC0 ≤ c.toNat ∧ c.toNat ≤ 0xDE ∧ c.toNat ≠ 0xD7 then
    Char.ofNat (c.toNat + 32)
  else c

/-- Canonical (NFD) decomposition of a character, as performed by
`unicodedata.normalize('NFD', s)` after lower-casing: the pre-composed
lower-case Latin-1 letters split into their base letter followed by a
combining mark; every other character is left alone. -/
def nfdChar (c : Char) : List Char :=
  let mark (base : Char) (m : Nat) : List Char := [base, Char.ofNat m]
  match c.toNat with
  | 0xE0 => mark 'a' 0x300 | 0xE1 => mark 'a' 0x301 | 0xE2 => mark 'a' 0x302
  | 0xE3 => mark 'a' 0x303 | 0xE4 => mark 'a' 0x308 | 0xE5 => mark 'a' 0x30A
  | 0xE7 => mark 'c' 0x327
  | 0xE8 => mark 'e' 0x300 | 0xE9 => mark 'e' 0x301 | 0xEA => mark 'e' 0x302
  | 0xEB => mark 'e' 0x308
  | 0xEC => mark 'i' 0x300 | 0xED => mark 'i' 0x301 | 0xEE => mark 'i' 0x302
  | 0xEF => mark 'i' 0x308
  | 0xF1 => mark 'n' 0x303
  | 0xF2 => mark 'o' 0x300 | 0xF3 => mark 'o' 0x301 | 0xF4 => mark 'o' 0x302
  | 0xF5 => mark 'o' 0x303 | 0xF6 => mark 'o' 0x308
  | 0xF9 => mark 'u' 0x300 | 0xFA => mark 'u' 0x301 | 0xFB => mark 'u' 0x302
  | 0xFC => mark 'u' 0x308
  | 0xFD => mark 'y' 0x301 | 0xFF => mark 'y' 0x308
  | _ => [c]

/-- Combining-mark test (`unicodedata.category(c) == 'Mn'`), restricted to
the Combining Diacritical Marks block produced by `nfdChar`. -/
def isMn (c : Char) : Bool :=
  0x300 ≤ c.toNat && c.toNat ≤ 0x36F

/-- Python `str.strip` on a character list: drop leading and trailing
whitespace. -/
def pyStrip (l : List Char) : List Char :=
  ((l.dropWhile isPySpace).reverse.dropWhile isPySpace).reverse

/-- Collapse runs of spaces to a single space (tail of modelling
`re.sub(r"\s+", " ", s)`: whitespace is first mapped to a plain space,
then adjacent spaces are squeezed). -/
def squeezeSpaces : List Char → List Char
  | [] => []
  | [c] => [c]
  | c1 :: c2 :: cs =>
    if c1 = ' ' ∧ c2 = ' ' then squeezeSpaces (c2 :: cs)
    else c1 :: squeezeSpaces (c2 :: cs)

/-! ## The three normalizers -/

/-- Embedding of `norm_id` from `epg_generator_auto.py`:
`s.strip().lower()`, NFD-decompose and drop combining marks, then keep only
`[a-z0-9]`. -/
def norm_id (s : String) : String :=
  let t := (pyStrip s.data).map pyLowerChar
  let d := t.foldr (fun c acc => nfdChar c ++ acc) []
  let d := d.filter (fun c => !(isMn c))
  String.mk (d.filter isAsciiLowerAlnum)

/-- Embedding of `normalize_name` from `epg_generator.py`: empty stays
empty; otherwise lower-case, `re.sub(r"\s+", " ", s)`,
`re.sub(r"[^a-z0-9 ]", "", s)`, strip.  Note: no diacritic folding, and
internal spaces survive. -/
def normalize_name (s : String) : String :=
  if s = "" then "" else
    let t := s.data.map pyLowerChar
    let t := squeezeSpaces (t.map (fun c => if isPySpace c then ' ' else c))
    let t := t.filter (fun c => isAsciiLowerAlnum c || c = ' ')
    String.mk (pyStrip t)

/-- Embedding of `normalize` from `build_epg_br.py`: lower-case, replace
every character outside `[a-z0-9À-ſ\s]` by a space, collapse
whitespace, strip.  Accented letters are kept. -/
def br_normalize (s : String) : String :=
  if s = "" then "" else
    let keep (c : Char) : Bool :=
      isAsciiLowerAlnum c || (0xC0 ≤ c.toNat && c.toNat ≤ 0x17F) || isPySpace c
    let t := s.data.map pyLowerChar
    let t := t.map (fun c => if keep c then c else ' ')
    let t := squeezeSpaces (t.map (fun c => if isPySpace c then ' ' else c))
    String.mk (pyStrip t)

/-! ## difflib.SequenceMatcher.ratio

Both sources compare keys with `SequenceMatcher(None, a, b).ratio()`.
With `isjunk=None` and the short strings produced by the normalizers
(autojunk only affects second strings of length ≥ 200) the CPython
algorithm reduces to: repeatedly find the longest matching block
(earliest position on ties), recurse on the two flanks, and return
`2*M/(len(a)+len(b))` where `M` is the total matched size (`1.0` when
both strings are empty). -/

/-- Length of the common suffix of `a[alo..i]` and `b[blo..j]` ending
exactly at positions `i` and `j` — the `j2len` chain value of
`find_longest_match`. -/
def sufLen (a b : List Char) (alo blo : Nat) : Nat → Nat → Nat
  | 0, _ => 0
  | _, 0 => 0
  | i + 1, j + 1 =>
    if a.getD i ' ' = b.getD j ' ' then
      if i ≤ alo ∨ j ≤ blo then 1 else 1 + sufLen a b alo blo i j
    else 0

/-- The chain value at `(i, j)` itself (the two-argument form above is
shifted by one so that structural recursion applies). -/
def chainAt (a b : List Char) (alo blo i j : Nat) : Nat :=
  sufLen a b alo blo (i + 1) (j + 1)

/-- Embedding of `SequenceMatcher.find_longest_match` on the window
`[alo, ahi) × [blo, bhi)` without junk: scan `(i, j)` in ascending order,
keep the first pair whose chain value strictly exceeds the best so far,
and report the block `(i - k + 1, j - k + 1, k)`. -/
def findLongestMatch (a b : List Char) (alo ahi blo bhi : Nat) :
    Nat × Nat × Nat :=
  let cands :=
    (List.range' alo (ahi - alo)).flatMap
      (fun i => (List.range' blo (bhi - blo)).map (fun j => (i, j)))
  cands.foldl
    (fun acc ij =>
      let k := chainAt a b alo blo ij.1 ij.2
      if k > acc.2.2 then (ij.1 + 1 - k, ij.2 + 1 - k, k) else acc)
    (alo, blo, 0)

/-- Total size of the matching blocks of `get_matching_blocks`: take the
longest match of the current window and recurse on the flanks.  The fuel
argument dominates the recursion depth (each level shrinks the window by
at least one on each side). -/
def matchTotalF (a b : List Char) : Nat → Nat → Nat → Nat → Nat → Nat
  | 0, _, _, _, _ => 0
  | fuel + 1, alo, ahi, blo, bhi =>
    let r := findLongestMatch a b alo ahi blo bhi
    let bi := r.1
    let bj := r.2.1
    let k := r.2.2
    if k = 0 then 0
    else
      k + matchTotalF a b fuel alo bi blo bj +
        matchTotalF a b fuel (bi + k) ahi (bj + k) bhi

/-- Total matched size `M` for two whole strings. -/
def matchTotal (a b : List Char) : Nat :=
  matchTotalF a b (a.length + b.length + 1) 0 a.length 0 b.length

/-- Embedding of `SequenceMatcher(None, a, b).ratio()` as an exact
rational (`2*M/T`, and `1.0` when both strings are empty). -/
def simRatio (a b : String) : ℚ :=
  if a.data.length + b.data.length = 0 then 1
  else mkRat (2 * matchTotal a.data b.data) (a.data.length + b.data.length)

set_option maxRecDepth 8000

example : simRatio "globo sp" "globo sp" = 1 := by decide
example : simRatio "ab" "ax" = mkRat 1 2 := by decide
example : simRatio "ab" "ay" = mkRat 1 2 := by decide
example : simRatio "xyz12" "xyz" = mkRat 3 4 := by decide
example : simRatio "" "" = 1 := by decide
example : simRatio "abc" "" = 0 := by decide

example : norm_id "Globo SP" = "globosp" := by decide
example : norm_id "GLOBO-sp" = "globosp" := by decide
example : norm_id "Glôbo Sp" = "globosp" := by decide
example : normalize_name "Globo SP" = "globo sp" := by decide
example : normalize_name "GLOBO-sp" = "globosp" := by decide
example : normalize_name "Glôbo Sp" = "glbo sp" := by decide
example : br_normalize "Glôbo Sp" = "glôbo sp" := by decide

/-! ## Python dicts as insertion-ordered association lists

CPython dicts preserve the insertion position of a key; assigning to an
existing key replaces the value in place, a new key is appended at the
end. -/

/-- `m[k] = v`. -/
def dictSet {α : Type} : List (String × α) → String → α → List (String × α)
  | [], k, v => [(k, v)]
  | p :: ps, k, v => if p.1 = k then (k, v) :: ps else p :: dictSet ps k v

/-- `m.get(k)` / `m[k]`. -/
def dictGet {α : Type} : List (String × α) → String → Option α
  | [], _ => none
  | p :: ps, k => if p.1 = k then some p.2 else dictGet ps k

/-- `k in m`. -/
def dictHas {α : Type} (m : List (String × α)) (k : String) : Bool :=
  (dictGet m k).isSome

/-- `m.setdefault(k, []).append(v)`. -/
def dictAppend {α : Type} :
    List (String × List α) → String → α → List (String × List α)
  | [], k, v => [(k, [v])]
  | p :: ps, k, v =>
    if p.1 = k then (p.1, p.2 ++ [v]) :: ps else p :: dictAppend ps k v

/-- `list(m.keys())`. -/
def dictKeys {α : Type} (m : List (String × α)) : List String :=
  m.map Prod.fst

/-! ## epg_generator_auto.py -/

/-- One `<channel>` element of the source EPG document (the engine reads
the `id` attribute; the whole element, including its display name, is
copied verbatim to the output). -/
structure EpgChannelEl where
  id : String
  display : String
  deriving DecidableEq, Repr

/-- One `<programme>` element: `channel`/`start`/`stop` attributes plus
title and description.  Timestamps are modelled as integers. -/
structure Programme where
  channel : String
  start : Int
  stop : Int
  title : String
  desc : String
  deriving DecidableEq, Repr

/-- An element of the EPG document tree, in document order. -/
inductive EpgItem where
  | chan (c : EpgChannelEl)
  | prog (p : Programme)
  deriving DecidableEq, Repr

/-- Embedding of `parse_m3u_ids`, starting from the extracted `tvg-id`
attribute strings: strip, normalize, drop ids whose normalized form is
empty, then de-duplicate by normalized id keeping the first occurrence. -/
def parse_m3u_ids (raws : List String) : List (String × String) :=
  let ids := (raws.map (fun r =>
      (String.mk (pyStrip r.data), norm_id (String.mk (pyStrip r.data))))).filter
    (fun p => p.2 ≠ "")
  (ids.foldl
      (fun acc p => if acc.2.contains p.2 then acc else (acc.1 ++ [p], acc.2 ++ [p.2]))
      (([] : List (String × String)), ([] : List String))).1

/-- One document element processed by `index_epg`: a `<channel>` with a
non-empty normalized id is stored in `channel_map` (a plain dict
assignment, so a colliding key is overwritten), a `<programme>` with a
non-empty normalized channel id is appended to its `programmes_map`
bucket. -/
def index_epg_step
    (acc : List (String × EpgChannelEl) × List (String × List Programme))
    (it : EpgItem) :
    List (String × EpgChannelEl) × List (String × List Programme) :=
  match it with
  | .chan c =>
    let n := norm_id c.id
    if n = "" then acc else (dictSet acc.1 n c, acc.2)
  | .prog p =>
    let n := norm_id p.channel
    if n = "" then acc else (acc.1, dictAppend acc.2 n p)

/-- Embedding of `index_epg`: walk the document elements in order,
building the channel and programme dicts. -/
def index_epg (items : List EpgItem) :
    List (String × EpgChannelEl) × List (String × List Programme) :=
  items.foldl index_epg_step ([], [])

/-- One candidate considered by `best_fuzzy_match`: keep it only when its
ratio strictly improves on the best so far. -/
def bfm_step (target : String) (acc : String × ℚ) (c : String) : String × ℚ :=
  let r := simRatio target c
  if r > acc.2 then (c, r) else acc

/-- Embedding of `best_fuzzy_match`: fold over the candidates keeping the
first strict improvement of the ratio, then accept the best candidate iff
its ratio reaches the threshold.  (Python returns the kept string, which
is the initial `""` when no candidate ever scored above `0.0`.) -/
def best_fuzzy_match (target : String) (cands : List String) (thr : ℚ) :
    Option String :=
  let best := cands.foldl (bfm_step target) ("", (0 : ℚ))
  if best.2 ≥ thr then some best.1 else none

/-- `re.sub(r"\d+$", "", s)`: remove trailing decimal digits. -/
def stripTrailingDigits (s : String) : String :=
  String.mk ((s.data.reverse.dropWhile (fun c => c.isDigit)).reverse)

/-- One iteration of the matching loop of `main` in
`epg_generator_auto.py`: exact normalized lookup, then fuzzy (a returned
empty string is falsy in Python and counts as no match), then the
trailing-digit-stripped lookup; an unmatched id leaves the dict
untouched. -/
def auto_match_step (channelMap : List (String × EpgChannelEl)) (thr : ℚ)
    (acc : List (String × String)) (rn : String × String) :
    List (String × String) :=
  let norm := rn.2
  if dictHas channelMap norm then dictSet acc norm norm
  else
    match best_fuzzy_match norm (dictKeys channelMap) thr with
    | some m =>
      if m ≠ "" then dictSet acc norm m
      else
        let alt := stripTrailingDigits norm
        if alt ≠ "" ∧ dictHas channelMap alt then dictSet acc norm alt
        else acc
    | none =>
      let alt := stripTrailingDigits norm
      if alt ≠ "" ∧ dictHas channelMap alt then dictSet acc norm alt
      else acc

/-- Embedding of the matching loop of `main` in `epg_generator_auto.py`. -/
def auto_match (ids : List (String × String))
    (channelMap : List (String × EpgChannelEl)) (thr : ℚ) :
    List (String × String) :=
  ids.foldl (auto_match_step channelMap thr) []

/-- Embedding of the output assembly of `main` in `epg_generator_auto.py`:
walk the matched values in insertion order, skip values already used,
and copy the EPG channel element and its programmes unchanged. -/
def auto_output (matched : List (String × String))
    (channelMap : List (String × EpgChannelEl))
    (progMap : List (String × List Programme)) :
    List EpgChannelEl × List Programme :=
  (matched.foldl
    (fun acc kv =>
      let m := kv.2
      if acc.2.contains m then acc
      else
        match dictGet channelMap m with
        | some ch =>
          ((acc.1.1 ++ [ch], acc.1.2 ++ ((dictGet progMap m).getD [])),
            acc.2 ++ [m])
        | none => acc)
    ((([] : List EpgChannelEl), ([] : List Programme)), ([] : List String))).1

/-- End-to-end auto pipeline on an already-extracted id list and document
item list: index, match, assemble. -/
def auto_main (raws : List String) (items : List EpgItem) (thr : ℚ) :
    List EpgChannelEl × List Programme :=
  let ids := parse_m3u_ids raws
  let maps := index_epg items
  auto_output (auto_match ids maps.1 thr) maps.1 maps.2

/-! ## epg_generator.py -/

/-- One playlist entry as produced by `parse_m3u_text`: `tvg_id` (falling
back to the display name when the attribute is missing) and the display
name. -/
structure M3uChannel where
  tvg_id : String
  name : String
  deriving DecidableEq, Repr

/-- Stable insertion of a programme into a list sorted by `start`:
the new element goes in front of the first element that does not start
strictly earlier. -/
def insertByStart (e : Programme) : List Programme → List Programme
  | [] => [e]
  | x :: xs =>
    if x.start < e.start then x :: insertByStart e xs else e :: x :: xs

/-- Stable ascending sort by `start`, modelling
`events[k].sort(key=lambda e: e["start"])` (CPython's sort is stable, so
any stable ascending sort produces the identical list). -/
def sortByStart : List Programme → List Programme
  | [] => []
  | e :: es => insertByStart e (sortByStart es)

/-- Embedding of the events dictionary built by `parse_external_epg_raw`:
programmes are appended to their channel's bucket in document order
(those with an empty `channel` attribute are skipped), then every bucket
is sorted by start time. -/
def parse_events_step (m : List (String × List Programme)) (p : Programme) :
    List (String × List Programme) :=
  if p.channel = "" then m else dictAppend m p.channel p

def parse_events (progs : List Programme) : List (String × List Programme) :=
  (progs.foldl parse_events_step []).map (fun kv => (kv.1, sortByStart kv.2))

/-- The event list of channel `c` (`[]` when `c` is not a key of the
events dictionary). -/
def eventsFor (progs : List Programme) (c : String) : List Programme :=
  (dictGet (parse_events progs) c).getD []

/-- Lower-casing a whole string, for the `tvg.lower() == id.lower()`
comparison. -/
def pyLower (s : String) : String :=
  String.mk (s.data.map pyLowerChar)

/-- Embedding of the exact-id loop of `build_mapping`: the first EPG
channel whose non-empty id equals the playlist `tvg_id` up to case. -/
def exact_id_match (tvg : String) (epg : List EpgChannelEl) : Option String :=
  (epg.find? (fun ec => ec.id ≠ "" && pyLower ec.id = pyLower tvg)).map
    (fun ec => ec.id)

/-- The candidate list of `build_mapping`: for each EPG channel, its id
together with the normalized form of its display name (falling back to
the id when the display name is empty). -/
def candidates (epg : List EpgChannelEl) : List (String × String) :=
  epg.map (fun ec =>
    (ec.id, normalize_name (if ec.display ≠ "" then ec.display else ec.id)))

/-- One candidate considered by the fuzzy loop of `build_mapping`:
candidates with an empty normalized name are skipped (`if not cand_norm:
continue`); otherwise keep the candidate on a strict ratio improvement. -/
def channel_fuzzy_step (norm : String) (acc : Option String × ℚ)
    (c : String × String) : Option String × ℚ :=
  if c.2 = "" then acc
  else
    let score := simRatio norm c.2
    if score > acc.2 then (some c.1, score) else acc

/-- Embedding of the fuzzy loop of `build_mapping`: scan the candidates
in order, keeping the first strict improvement of the ratio over the
starting score `0.0`. -/
def channel_fuzzy (norm : String) (cands : List (String × String)) :
    Option String × ℚ :=
  cands.foldl (channel_fuzzy_step norm) (none, (0 : ℚ))

/-- The per-channel score of `build_mapping` before thresholding: the
exact-id strategy at score `1.0`, else the fuzzy scan. -/
def channel_best (ch : M3uChannel) (epg : List EpgChannelEl) :
    Option String × ℚ :=
  match exact_id_match ch.tvg_id epg with
  | some eid => (some eid, 1)
  | none =>
    let mname := if ch.name ≠ "" then ch.name else ch.tvg_id
    channel_fuzzy (normalize_name mname) (candidates epg)

/-- One playlist channel processed by `build_mapping`: the mapping dict
entry keyed by its `tvg_id` keeps the matched id only when the best score
reaches `min_ratio`, and records `None` with the best score otherwise. -/
def build_mapping_step (epg : List EpgChannelEl) (minR : ℚ)
    (mapping : List (String × (Option String × ℚ))) (ch : M3uChannel) :
    List (String × (Option String × ℚ)) :=
  let best := channel_best ch epg
  if best.2 ≥ minR then dictSet mapping ch.tvg_id best
  else dictSet mapping ch.tvg_id (none, best.2)

/-- Embedding of `build_mapping`: every playlist channel contributes an
entry to the mapping dict in playlist order. -/
def build_mapping (m3u : List M3uChannel) (epg : List EpgChannelEl)
    (minR : ℚ) : List (String × (Option String × ℚ)) :=
  m3u.foldl (build_mapping_step epg minR) []

/-- `now.replace(minute=0, second=0, microsecond=0)` on the integer time
line: round down to the enclosing hour. -/
def floorHour (now : Int) : Int :=
  now - now % 3600

/-- The placeholder block `i` (0-based) generated by the fallback branch
of `build_final_epg`. -/
def placeholderAt (base : Int) (tvg name : String) (i : Nat) : Programme :=
  { channel := tvg
    start := base + i * 3600
    stop := base + i * 3600 + 3600
    title := "Program " ++ toString (i + 1) ++ " - " ++ name
    desc := "Programa gerado automaticamente - " ++ name ++ " - Bloco " ++
      toString (i + 1) }

/-- The fallback placeholder schedule: `hours` one-hour blocks starting
at `base`. -/
def placeholders (hours : Nat) (base : Int) (tvg name : String) :
    List Programme :=
  (List.range hours).map (placeholderAt base tvg name)

/-- The single re-keying step of the reconciler: copy the event verbatim
and rewrite its channel key to the playlist identifier. -/
def rekeyEv (tvg : String) (ev : Programme) : Programme :=
  { channel := tvg
    start := ev.start
    stop := ev.stop
    title := ev.title
    desc := ev.desc }

/-- The reconciled (real) schedule of one playlist channel: the events of
its mapped EPG id, when the mapping resolved, the events dictionary
exists, and the mapped id is one of its keys (`mapped and epg_events and
mapped in epg_events`); otherwise empty.  A key is present in the events
dict exactly when its bucket is non-empty, and the falsy `""` id never
is. -/
def reconciledFor (mapping : List (String × (Option String × ℚ)))
    (progsOpt : Option (List Programme)) (tvg : String) : List Programme :=
  match (dictGet mapping tvg).getD (none, 0) |>.1, progsOpt with
  | some eid, some ps => if eid ≠ "" then eventsFor ps eid else []
  | _, _ => []

/-- Embedding of `build_final_epg`: one output record per playlist
channel, in playlist order, carrying the re-keyed real events when the
reconciled schedule is non-empty and the placeholder schedule otherwise. -/
def build_final_epg (m3u : List M3uChannel)
    (progsOpt : Option (List Programme))
    (mapping : List (String × (Option String × ℚ)))
    (hours : Nat) (now : Int) : List (M3uChannel × List Programme) :=
  let base := floorHour now
  m3u.map (fun ch =>
    let evs := reconciledFor mapping progsOpt ch.tvg_id
    if evs ≠ [] then (ch, evs.map (rekeyEv ch.tvg_id))
    else (ch, placeholders hours base ch.tvg_id ch.name))

/-! ## Dict lemmas -/

theorem dictGet_dictSet_self {α : Type} (m : List (String × α)) (k : String)
    (v : α) : dictGet (dictSet m k v) k = some v := by
  induction m with
  | nil => simp [dictSet, dictGet]
  | cons p ps ih =>
    by_cases h : p.1 = k
    · simp [dictSet, dictGet, h]
    · simp [dictSet, dictGet, h, ih]

theorem dictGet_dictSet_ne {α : Type} (m : List (String × α)) (k q : String)
    (v : α) (h : k ≠ q) : dictGet (dictSet m k v) q = dictGet m q := by
  induction m with
  | nil => simp [dictSet, dictGet, h]
  | cons p ps ih =>
    by_cases hp : p.1 = k
    · simp [dictSet, dictGet, hp, h]
    · simp only [dictSet, if_neg hp]
      by_cases hq : p.1 = q
      · simp [dictGet, hq]
      · simp [dictGet, hq, ih]

theorem dictHas_dictSet {α : Type} (m : List (String × α)) (k q : String)
    (v : α) (h : dictHas m q = true) : dictHas (dictSet m k v) q = true := by
  by_cases hk : k = q
  · subst hk; simp [dictHas, dictGet_dictSet_self]
  · simpa [dictHas, dictGet_dictSet_ne m k q v hk] using h

theorem dictGet_dictAppend_self {α : Type} (m : List (String × List α))
    (k : String) (v : α) :
    dictGet (dictAppend m k v) k = some ((dictGet m k).getD [] ++ [v]) := by
  induction m with
  | nil => simp [dictAppend, dictGet]
  | cons p ps ih =>
    by_cases h : p.1 = k
    · simp [dictAppend, dictGet, h]
    · simp [dictAppend, dictGet, h, ih]

theorem dictGet_dictAppend_ne {α : Type} (m : List (String × List α))
    (k q : String) (v : α) (h : k ≠ q) :
    dictGet (dictAppend m k v) q = dictGet m q := by
  induction m with
  | nil => simp [dictAppend, dictGet, h]
  | cons p ps ih =>
    by_cases hp : p.1 = k
    · subst hp; simp [dictAppend, dictGet, h]
    · simp only [dictAppend, if_neg hp]
      by_cases hq : p.1 = q
      · simp [dictGet, hq]
      · simp [dictGet, hq, ih]

/-! ## Stable-sort lemmas -/

theorem insertByStart_perm (e : Programme) (l : List Programme) :
    (insertByStart e l).Perm (e :: l) := by
  induction l with
  | nil => simp [insertByStart]
  | cons x xs ih =>
    by_cases h : x.start < e.start
    · simp only [insertByStart, if_pos h]
      exact (ih.cons x).trans (List.Perm.swap e x xs)
    · simp [insertByStart, if_neg h]

theorem sortByStart_perm (l : List Programme) : (sortByStart l).Perm l := by
  induction l with
  | nil => simp [sortByStart]
  | cons e es ih =>
    exact (insertByStart_perm e (sortByStart es)).trans (ih.cons e)

theorem pairwise_insertByStart (e : Programme) (l : List Programme)
    (h : l.Pairwise (fun a b => a.start ≤ b.start)) :
    (insertByStart e l).Pairwise (fun a b => a.start ≤ b.start) := by
  induction l with
  | nil => simp [insertByStart]
  | cons x xs ih =>
    rcases List.pairwise_cons.mp h with ⟨hx, hxs⟩
    by_cases hlt : x.start < e.start
    · simp only [insertByStart, if_pos hlt]
      refine List.pairwise_cons.mpr ⟨?_, ih hxs⟩
      intro a ha
      have hmem := (insertByStart_perm e xs).mem_iff.mp ha
      rcases List.mem_cons.mp hmem with h1 | h2
      · subst h1; exact le_of_lt hlt
      · exact hx a h2
    · simp only [insertByStart, if_neg hlt]
      refine List.pairwise_cons.mpr ⟨?_, h⟩
      intro a ha
      rcases List.mem_cons.mp ha with h1 | h2
      · subst h1; exact le_of_not_lt hlt
      · exact le_trans (le_of_not_lt hlt) (hx a h2)

theorem pairwise_sortByStart (l : List Programme) :
    (sortByStart l).Pairwise (fun a b => a.start ≤ b.start) := by
  induction l with
  | nil => simp [sortByStart]
  | cons e es ih => exact pairwise_insertByStart e (sortByStart es) ih

theorem filter_start_insertByStart (t : Int) (e : Programme)
    (l : List Programme) :
    (insertByStart e l).filter (fun p => p.start == t) =
      if e.start = t then e :: l.filter (fun p => p.start == t)
      else l.filter (fun p => p.start == t) := by
  induction l with
  | nil =>
    by_cases h : e.start = t <;>
      simp [insertByStart, List.filter_cons, List.filter_nil, h]
  | cons x xs ih =>
    by_cases hlt : x.start < e.start
    · simp only [insertByStart, if_pos hlt]
      by_cases he : e.start = t
      · have hx : ¬ (x.start = t) := by
          intro hx; rw [hx] at hlt; rw [he] at hlt; exact lt_irrefl t hlt
        simp [List.filter_cons, hx, ih, he]
      · simp [List.filter_cons, ih, he]
    · simp only [insertByStart, if_neg hlt]
      by_cases he : e.start = t <;> simp [List.filter_cons, he]

theorem filter_start_sortByStart (t : Int) (l : List Programme) :
    (sortByStart l).filter (fun p => p.start == t) =
      l.filter (fun p => p.start == t) := by
  induction l with
  | nil => simp [sortByStart]
  | cons e es ih =>
    by_cases he : e.start = t <;>
      simp [sortByStart, filter_start_insertByStart, he, ih, List.filter_cons]

/-! ## Characterization of the parsed events dictionary -/

theorem dictGet_mapVal {α β : Type} (f : α → β)
    (m : List (String × α)) (c : String) :
    dictGet (m.map (fun kv => (kv.1, f kv.2))) c = (dictGet m c).map f := by
  induction m with
  | nil => simp [dictGet]
  | cons p ps ih =>
    by_cases h : p.1 = c
    · simp [dictGet, h]
    · simp [dictGet, h, ih]

theorem fold_parse_events_step (progs : List Programme)
    (c : String) (hc : c ≠ "") :
    ∀ m : List (String × List Programme),
      (dictGet (progs.foldl parse_events_step m) c).getD [] =
        (dictGet m c).getD [] ++ progs.filter (fun p => p.channel == c) := by
  induction progs with
  | nil => intro m; simp
  | cons p ps ih =>
    intro m
    by_cases hemp : p.channel = ""
    · have hne : ¬ ("" = c) := fun h => hc h.symm
      simp [List.foldl_cons, parse_events_step, hemp, ih, List.filter_cons, hne]
    · by_cases hpc : p.channel = c
      · subst hpc
        simp [List.foldl_cons, parse_events_step, hemp, ih,
          dictGet_dictAppend_self, List.filter_cons]
      · have hne : (p.channel == c) = false := by simp [hpc]
        simp [List.foldl_cons, parse_events_step, hemp, ih,
          dictGet_dictAppend_ne _ _ _ _ hpc, List.filter_cons, hne]

theorem eventsFor_eq_sort (progs : List Programme) (c : String)
    (hc : c ≠ "") :
    eventsFor progs c = sortByStart (progs.filter (fun p => p.channel == c)) := by
  have h := fold_parse_events_step progs c hc []
  simp only [dictGet, Option.getD_none, List.nil_append] at h
  unfold eventsFor parse_events
  rw [dictGet_mapVal]
  cases hg : dictGet (progs.foldl parse_events_step []) c with
  | none =>
    rw [hg] at h
    simp only [Option.getD_none] at h
    rw [← h]
    simp [sortByStart]
  | some b =>
    rw [hg] at h
    simp only [Option.getD_some] at h
    rw [← h]
    simp

/-! ## Characterization of the channel index (collision policy) -/

/-- The channel elements of the document, in document order. -/
def chansOf (items : List EpgItem) : List EpgChannelEl :=
  items.filterMap (fun it =>
    match it with
    | .chan c => some c
    | .prog _ => none)

theorem index_fold_channels (items : List EpgItem) (k : String) :
    ∀ acc, dictGet ((items.foldl index_epg_step acc).1) k =
      ((chansOf items).reverse.find?
          (fun c => norm_id c.id == k && !(norm_id c.id == ""))).or
        (dictGet acc.1 k) := by
  induction items with
  | nil => intro acc; simp [chansOf]
  | cons it rest ih =>
    intro acc
    cases it with
    | chan c =>
      have hch : chansOf (EpgItem.chan c :: rest) = c :: chansOf rest := by
        simp [chansOf]
      rw [List.foldl_cons, ih, hch]
      rw [List.reverse_cons, List.find?_append]
      cases hf : (chansOf rest).reverse.find?
          (fun c => norm_id c.id == k && !(norm_id c.id == "")) with
      | some d => simp
      | none =>
        simp only [Option.none_or]
        by_cases hemp : norm_id c.id = ""
        · simp [List.find?, index_epg_step, hemp]
        · have h1 : (norm_id c.id == "") = false := beq_eq_false_iff_ne.mpr hemp
          by_cases hk : norm_id c.id = k
          · subst hk
            simp [List.find?, index_epg_step, hemp, h1, dictGet_dictSet_self]
          · have h2 : (norm_id c.id == k) = false := beq_eq_false_iff_ne.mpr hk
            simp [List.find?, index_epg_step, hemp, h2,
              dictGet_dictSet_ne _ _ _ _ hk]
    | prog p =>
      have hch : chansOf (EpgItem.prog p :: rest) = chansOf rest := by
        simp [chansOf]
      rw [List.foldl_cons, ih, hch]
      have h1 : ((index_epg_step acc (EpgItem.prog p)).1) = acc.1 := by
        by_cases hemp : norm_id p.channel = "" <;> simp [index_epg_step, hemp]
      rw [h1]

/-! ## Fold lemmas for the auto matching loop -/

theorem auto_match_step_preserve (cmap : List (String × EpgChannelEl))
    (thr : ℚ) (acc : List (String × String)) (rn : String × String)
    (q : String) (h : rn.2 ≠ q) :
    dictGet (auto_match_step cmap thr acc rn) q = dictGet acc q := by
  simp only [auto_match_step]
  split
  · exact dictGet_dictSet_ne _ _ _ _ h
  · split
    · split
      · exact dictGet_dictSet_ne _ _ _ _ h
      · split
        · exact dictGet_dictSet_ne _ _ _ _ h
        · rfl
    · split
      · exact dictGet_dictSet_ne _ _ _ _ h
      · rfl

theorem auto_match_fold_key (cmap : List (String × EpgChannelEl)) (thr : ℚ)
    (norm v : String)
    (hstep : ∀ acc raw2,
      dictGet (auto_match_step cmap thr acc (raw2, norm)) norm = some v) :
    ∀ (l : List (String × String)) (acc : List (String × String)),
      (dictGet acc norm = some v ∨ ∃ r, (r, norm) ∈ l) →
      dictGet (l.foldl (auto_match_step cmap thr) acc) norm = some v := by
  intro l
  induction l with
  | nil =>
    intro acc h
    rcases h with h | ⟨r, hr⟩
    · simpa using h
    · simp at hr
  | cons x xs ih =>
    intro acc h
    rw [List.foldl_cons]
    by_cases hx : x.2 = norm
    · refine ih _ (Or.inl ?_)
      have hx2 : x = (x.1, norm) := by
        cases x; simp_all
      rw [hx2]
      exact hstep acc x.1
    · rcases h with h | ⟨r, hr⟩
      · refine ih _ (Or.inl ?_)
        rw [auto_match_step_preserve cmap thr acc x norm hx]
        exact h
      · rcases List.mem_cons.mp hr with h1 | h2
        · exfalso; apply hx; rw [← h1]
        · exact ih _ (Or.inr ⟨r, h2⟩)

/-! ## First-argmax characterization of the fuzzy folds -/

theorem bfm_fold_spec (target : String) :
    ∀ (l : List String) (b : String) (r : ℚ),
      (l.foldl (bfm_step target) (b, r) = (b, r) ∧
        ∀ x ∈ l, simRatio target x ≤ r) ∨
      (∃ l1 c l2, l = l1 ++ c :: l2 ∧
        l.foldl (bfm_step target) (b, r) = (c, simRatio target c) ∧
        r < simRatio target c ∧
        (∀ x ∈ l1, simRatio target x < simRatio target c) ∧
        (∀ x ∈ l2, simRatio target x ≤ simRatio target c)) := by
  intro l
  induction l with
  | nil => intro b r; exact Or.inl ⟨rfl, by simp⟩
  | cons x xs ih =>
    intro b r
    by_cases hgt : simRatio target x > r
    · have hstep : bfm_step target (b, r) x = (x, simRatio target x) := by
        simp [bfm_step, hgt]
      rcases ih x (simRatio target x) with ⟨heq, hle⟩ | ⟨l1, c, l2, hsplit, heq, hlt, h1, h2⟩
      · refine Or.inr ⟨[], x, xs, by simp, ?_, hgt, by simp, hle⟩
        rw [List.foldl_cons, hstep, heq]
      · refine Or.inr ⟨x :: l1, c, l2, by simp [hsplit], ?_, lt_trans hgt hlt, ?_, h2⟩
        · rw [List.foldl_cons, hstep, heq]
        · intro y hy
          rcases List.mem_cons.mp hy with hy1 | hy2
          · subst hy1; exact hlt
          · exact h1 y hy2
    · have hstep : bfm_step target (b, r) x = (b, r) := by
        simp [bfm_step]
        intro hc; exact absurd hc hgt
      rcases ih b r with ⟨heq, hle⟩ | ⟨l1, c, l2, hsplit, heq, hlt, h1, h2⟩
      · refine Or.inl ⟨?_, ?_⟩
        · rw [List.foldl_cons, hstep, heq]
        · intro y hy
          rcases List.mem_cons.mp hy with hy1 | hy2
          · subst hy1; exact le_of_not_lt hgt
          · exact hle y hy2
      · refine Or.inr ⟨x :: l1, c, l2, by simp [hsplit], ?_, hlt, ?_, h2⟩
        · rw [List.foldl_cons, hstep, heq]
        · intro y hy
          rcases List.mem_cons.mp hy with hy1 | hy2
          · subst hy1; exact lt_of_le_of_lt (le_of_not_lt hgt) hlt
          · exact h1 y hy2

theorem channel_fuzzy_fold_spec (norm : String) :
    ∀ (l : List (String × String)) (b : Option String) (r : ℚ),
      (l.foldl (channel_fuzzy_step norm) (b, r) = (b, r) ∧
        ∀ x ∈ l, x.2 ≠ "" → simRatio norm x.2 ≤ r) ∨
      (∃ l1 c l2, l = l1 ++ c :: l2 ∧ c.2 ≠ "" ∧
        l.foldl (channel_fuzzy_step norm) (b, r) =
          (some c.1, simRatio norm c.2) ∧
        r < simRatio norm c.2 ∧
        (∀ x ∈ l1, x.2 ≠ "" → simRatio norm x.2 < simRatio norm c.2) ∧
        (∀ x ∈ l2, x.2 ≠ "" → simRatio norm x.2 ≤ simRatio norm c.2)) := by
  intro l
  induction l with
  | nil => intro b r; exact Or.inl ⟨rfl, by simp⟩
  | cons x xs ih =>
    intro b r
    by_cases hemp : x.2 = ""
    · have hstep : channel_fuzzy_step norm (b, r) x = (b, r) := by
        simp [channel_fuzzy_step, hemp]
      rcases ih b r with ⟨heq, hle⟩ | ⟨l1, c, l2, hsplit, hcne, heq, hlt, h1, h2⟩
      · refine Or.inl ⟨?_, ?_⟩
        · rw [List.foldl_cons, hstep, heq]
        · intro y hy hyne
          rcases List.mem_cons.mp hy with hy1 | hy2
          · subst hy1; exact absurd hemp hyne
          · exact hle y hy2 hyne
      · refine Or.inr ⟨x :: l1, c, l2, by simp [hsplit], hcne, ?_, hlt, ?_, h2⟩
        · rw [List.foldl_cons, hstep, heq]
        · intro y hy hyne
          rcases List.mem_cons.mp hy with hy1 | hy2
          · subst hy1; exact absurd hemp hyne
          · exact h1 y hy2 hyne
    · by_cases hgt : simRatio norm x.2 > r
      · have hstep : channel_fuzzy_step norm (b, r) x =
            (some x.1, simRatio norm x.2) := by
          simp [channel_fuzzy_step, hemp, hgt]
        rcases ih (some x.1) (simRatio norm x.2) with
          ⟨heq, hle⟩ | ⟨l1, c, l2, hsplit, hcne, heq, hlt, h1, h2⟩
        · refine Or.inr ⟨[], x, xs, by simp, hemp, ?_, hgt, by simp, hle⟩
          rw [List.foldl_cons, hstep, heq]
        · refine Or.inr ⟨x :: l1, c, l2, by simp [hsplit], hcne, ?_,
            lt_trans hgt hlt, ?_, h2⟩
          · rw [List.foldl_cons, hstep, heq]
          · intro y hy hyne
            rcases List.mem_cons.mp hy with hy1 | hy2
            · subst hy1; exact hlt
            · exact h1 y hy2 hyne
      · have hstep : channel_fuzzy_step norm (b, r) x = (b, r) := by
          simp [channel_fuzzy_step, hemp]
          intro hc; exact absurd hc hgt
        rcases ih b r with ⟨heq, hle⟩ | ⟨l1, c, l2, hsplit, hcne, heq, hlt, h1, h2⟩
        · refine Or.inl ⟨?_, ?_⟩
          · rw [List.foldl_cons, hstep, heq]
          · intro y hy hyne
            rcases List.mem_cons.mp hy with hy1 | hy2
            · subst hy1; exact le_of_not_lt hgt
            · exact hle y hy2 hyne
        · refine Or.inr ⟨x :: l1, c, l2, by simp [hsplit], hcne, ?_, hlt, ?_, h2⟩
          · rw [List.foldl_cons, hstep, heq]
          · intro y hy hyne
            rcases List.mem_cons.mp hy with hy1 | hy2
            · subst hy1; exact lt_of_le_of_lt (le_of_not_lt hgt) hlt
            · exact h1 y hy2 hyne

/-! ## Key-presence lemma for `build_mapping` -/

theorem build_mapping_fold_has (epg : List EpgChannelEl) (minR : ℚ) :
    ∀ (l : List M3uChannel) (acc : List (String × (Option String × ℚ)))
      (ch : M3uChannel),
      (ch ∈ l ∨ dictHas acc ch.tvg_id = true) →
      dictHas (l.foldl (build_mapping_step epg minR) acc) ch.tvg_id = true := by
  intro l
  induction l with
  | nil =>
    intro acc ch h
    rcases h with h | h
    · simp at h
    · simpa using h
  | cons x xs ih =>
    intro acc ch h
    rw [List.foldl_cons]
    have hstep : ∀ q, dictHas acc q = true →
        dictHas (build_mapping_step epg minR acc x) q = true := by
      intro q hq
      simp only [build_mapping_step]
      split
      · exact dictHas_dictSet _ _ _ _ hq
      · exact dictHas_dictSet _ _ _ _ hq
    have hself : dictHas (build_mapping_step epg minR acc x) x.tvg_id = true := by
      simp only [build_mapping_step]
      split
      · simp [dictHas, dictGet_dictSet_self]
      · simp [dictHas, dictGet_dictSet_self]
    rcases h with h | h
    · rcases List.mem_cons.mp h with h1 | h2
      · subst h1; exact ih _ ch (Or.inr hself)
      · exact ih _ ch (Or.inl h2)
    · exact ih _ ch (Or.inr (hstep _ h))

/-! ## Claim C4 -/

/-- C4, counterexample: the claim asserts that normalization maps
identifiers differing only in case, diacritics, or non-alphanumeric
characters to the same key, with outputs drawn from `[a-z0-9]`.  The
`normalize_name` implementation in `epg_generator.py` violates it: it
keeps internal spaces and deletes accented letters instead of folding
them, so the three canonical examples produce three distinct keys and an
output containing a space. -/
theorem c4_normalize_name_counterexample :
    (normalize_name "Globo SP" = "globo sp" ∧
      normalize_name "GLOBO-sp" = "globosp" ∧
      normalize_name "Glôbo Sp" = "glbo sp") ∧
    normalize_name "Globo SP" ≠ normalize_name "GLOBO-sp" ∧
    ' ' ∈ (normalize_name "Globo SP").data ∧
    isAsciiLowerAlnum ' ' = false := by
  decide

/-- C4, amended: `norm_id` in `epg_generator_auto.py` does satisfy the
property — the three canonical examples all normalize to `"globosp"` and
every output character is an ASCII lower-case letter or digit — while
`normalize_name` (`epg_generator.py`) and `normalize` (`build_epg_br.py`)
do not: both keep spaces, one drops accented letters and the other keeps
them verbatim. -/
theorem c4_norm_id_canonical :
    norm_id "Globo SP" = "globosp" ∧ norm_id "GLOBO-sp" = "globosp" ∧
    norm_id "Glôbo Sp" = "globosp" ∧
    (∀ s : String, ∀ c ∈ (norm_id s).data, isAsciiLowerAlnum c = true) ∧
    normalize_name "GLOBO-sp" ≠ normalize_name "Globo SP" ∧
    br_normalize "Glôbo Sp" ≠ br_normalize "Globo SP" := by
  refine ⟨by decide, by decide, by decide, ?_, by decide, by decide⟩
  intro s c hc
  have hd : (norm_id s).data =
      ((((pyStrip s.data).map pyLowerChar).foldr
          (fun c acc => nfdChar c ++ acc) []).filter
        (fun c => !(isMn c))).filter isAsciiLowerAlnum := rfl
  rw [hd] at hc
  exact (List.mem_filter.mp hc).2

/-- C4, witness for the amended theorem at a concrete input. -/
theorem c4_norm_id_canonical_witness :
    ('g' ∈ (norm_id "Globo SP").data) ∧ isAsciiLowerAlnum 'g' = true :=
  ⟨by decide, c4_norm_id_canonical.2.2.2.1 "Globo SP" 'g' (by decide)⟩

/-! ## Claim C5 -/

/-- C5, counterexample: the claim asserts that a normalized-key collision
keeps the first channel record in document order.  `index_epg` in
`epg_generator_auto.py` does the opposite: the plain dict assignment
silently overwrites, so the second record wins. -/
theorem c5_index_epg_overwrites :
    norm_id "A.B" = "ab" ∧ norm_id "a-b" = "ab" ∧
    dictGet (index_epg
        [.chan ⟨"A.B", "first"⟩, .chan ⟨"a-b", "second"⟩]).1 "ab" =
      some ⟨"a-b", "second"⟩ ∧
    (⟨"a-b", "second"⟩ : EpgChannelEl) ≠ ⟨"A.B", "first"⟩ := by
  decide

/-- C5, amended: on a normalized-key collision `index_epg` keeps the
channel record encountered LAST in document order, silently overwriting
the earlier one (no warning is logged, and — the index being a total
function — no exception is raised): for every document and key, the index
lookup returns the last channel whose non-empty normalized id equals the
key. -/
theorem c5_index_epg_last_wins (items : List EpgItem) (k : String) :
    dictGet (index_epg items).1 k =
      (chansOf items).reverse.find?
        (fun c => norm_id c.id == k && !(norm_id c.id == "")) := by
  have h := index_fold_channels items k ([], [])
  simpa [index_epg, dictGet] using h

/-! ## Claim C6 -/

/-- C6: for a channel whose reconciled schedule is empty, the fallback
branch of `build_final_epg` emits the synthesized placeholder schedule:
exactly `hours` blocks (the code's block count), each exactly one hour
wide (the code's fixed block width), contiguous and non-overlapping —
block `i` spans `[base + i·3600, base + (i+1)·3600)` so each block's stop
is the next block's start — with the first block starting at the anchor
time rounded down to the hour. -/
theorem c6_placeholder_schedule :
    (∀ (hours : Nat) (base : Int) (tvg name : String),
      (placeholders hours base tvg name).length = hours) ∧
    (∀ (hours : Nat) (base : Int) (tvg name : String) (i : Nat), i < hours →
      (placeholders hours base tvg name)[i]? =
        some (placeholderAt base tvg name i) ∧
      (placeholderAt base tvg name i).start = base + i * 3600 ∧
      (placeholderAt base tvg name i).stop =
        (placeholderAt base tvg name i).start + 3600 ∧
      (placeholderAt base tvg name i).channel = tvg ∧
      (placeholderAt base tvg name i).stop =
        (placeholderAt base tvg name (i + 1)).start) ∧
    (∀ now : Int, floorHour now ≤ now ∧ now < floorHour now + 3600 ∧
      (3600 : Int) ∣ floorHour now) ∧
    (∀ (m3u : List M3uChannel) (progsOpt : Option (List Programme))
      (mapping : List (String × (Option String × ℚ))) (hours : Nat)
      (now : Int) (i : Nat) (ch : M3uChannel),
      m3u[i]? = some ch →
      reconciledFor mapping progsOpt ch.tvg_id = [] →
      (build_final_epg m3u progsOpt mapping hours now)[i]? =
        some (ch, placeholders hours (floorHour now) ch.tvg_id ch.name)) := by
  refine ⟨?_, ?_, ?_, ?_⟩
  · intro hours base tvg name
    simp [placeholders]
  · intro hours base tvg name i hi
    refine ⟨?_, rfl, rfl, rfl, ?_⟩
    · simp [placeholders, List.getElem?_map, List.getElem?_range hi]
    · simp only [placeholderAt]
      push_cast
      ring
  · intro now
    have h1 := Int.emod_nonneg now (by norm_num : (3600 : Int) ≠ 0)
    have h2 := Int.emod_lt_of_pos now (by norm_num : (0 : Int) < 3600)
    have h3 := Int.ediv_add_emod now 3600
    refine ⟨?_, ?_, ⟨now / 3600, ?_⟩⟩
    · unfold floorHour; linarith
    · unfold floorHour; linarith
    · unfold floorHour; linarith
  · intro m3u progsOpt mapping hours now i ch hch hrec
    simp [build_final_epg, List.getElem?_map, hch, hrec]

/-- C6, witness: the placeholder properties and the fallback trigger at a
concrete input. -/
theorem c6_placeholder_schedule_witness :
    ((placeholders 2 0 "ch" "Nm")[1]? = some (placeholderAt 0 "ch" "Nm" 1) ∧
      (placeholderAt 0 "ch" "Nm" 1).start = 0 + (1 : Nat) * 3600 ∧
      (placeholderAt 0 "ch" "Nm" 1).stop =
        (placeholderAt 0 "ch" "Nm" 1).start + 3600 ∧
      (placeholderAt 0 "ch" "Nm" 1).channel = "ch" ∧
      (placeholderAt 0 "ch" "Nm" 1).stop =
        (placeholderAt 0 "ch" "Nm" 2).start) ∧
    (build_final_epg [⟨"ch", "Nm"⟩] none [] 2 30)[0]? =
      some (⟨"ch", "Nm"⟩, placeholders 2 (floorHour 30) "ch" "Nm") :=
  ⟨c6_placeholder_schedule.2.1 2 0 "ch" "Nm" 1 (by decide),
    c6_placeholder_schedule.2.2.2 [⟨"ch", "Nm"⟩] none [] 2 30 0 ⟨"ch", "Nm"⟩
      (by decide) (by decide)⟩

/-! ## Claim C8 -/

/-- C8, counterexample: the claim asserts that a `min_ratio` outside
`[0, 1]` makes the program fail fast before matching.  Neither variant
validates the threshold: with `min_ratio = 2` the matching loop of
`build_mapping` runs to completion and even a perfect exact-id match
(score `1.0`) is silently recorded as unmatched. -/
theorem c8_no_min_ratio_validation :
    exact_id_match "A" [⟨"A", "A"⟩] = some "A" ∧
    build_mapping [⟨"A", "A"⟩] [⟨"A", "A"⟩] 2 = [("A", (none, 1))] := by
  decide

/-- C8, amended: there is no fail-fast path for an out-of-range
`min_ratio`: for any threshold outside `[0, 1]`, `build_mapping` still
processes every playlist channel and produces a mapping entry for it. -/
theorem c8_matching_proceeds (m3u : List M3uChannel)
    (epg : List EpgChannelEl) (minR : ℚ) (_hinv : minR < 0 ∨ 1 < minR)
    (ch : M3uChannel) (hch : ch ∈ m3u) :
    dictHas (build_mapping m3u epg minR) ch.tvg_id = true := by
  unfold build_mapping
  exact build_mapping_fold_has epg minR m3u [] ch (Or.inl hch)

/-- C8, witness for the amended theorem at a concrete input. -/
theorem c8_matching_proceeds_witness :
    ((2 : ℚ) < 0 ∨ (1 : ℚ) < 2) ∧
      dictHas (build_mapping [⟨"A", "A"⟩] [] 2) "A" = true :=
  ⟨Or.inr (by norm_num),
    c8_matching_proceeds [⟨"A", "A"⟩] [] 2 (Or.inr (by norm_num))
      ⟨"A", "A"⟩ (by simp)⟩

/-! ## Claim C1 -/

/-- C1, counterexample: the claim asserts that every playlist channel
appears in the final output of both pipelines, with a real or synthesized
schedule, even when the EPG input is empty.  The auto variant violates
it: its playlist has one channel (`tvg-id "Foo"`), the EPG document is
empty, and the output contains no channel and no programme at all —
unmatched channels are silently dropped and nothing is synthesized. -/
theorem c1_auto_omits_unmatched :
    parse_m3u_ids ["Foo"] = [("Foo", "foo")] ∧
    auto_main ["Foo"] [] (mkRat 72 100) = ([], []) := by
  decide

/-- C1, amended: in `epg_generator.py` the final output is structurally
complete — `build_final_epg` emits exactly one record per playlist
channel, in playlist order, carrying either the re-keyed real schedule of
its mapped EPG channel or the synthesized placeholder schedule.  The auto
variant instead omits unmatched playlist channels entirely. -/
theorem c1_build_final_epg_complete (m3u : List M3uChannel)
    (progsOpt : Option (List Programme))
    (mapping : List (String × (Option String × ℚ))) (hours : Nat)
    (now : Int) :
    (build_final_epg m3u progsOpt mapping hours now).map Prod.fst = m3u ∧
    (∀ (i : Nat) (ch : M3uChannel), m3u[i]? = some ch →
      ∃ evs, (build_final_epg m3u progsOpt mapping hours now)[i]? =
          some (ch, evs) ∧
        ((reconciledFor mapping progsOpt ch.tvg_id ≠ [] ∧
          evs = (reconciledFor mapping progsOpt ch.tvg_id).map
            (rekeyEv ch.tvg_id)) ∨
         (reconciledFor mapping progsOpt ch.tvg_id = [] ∧
          evs = placeholders hours (floorHour now) ch.tvg_id ch.name))) := by
  constructor
  · unfold build_final_epg
    rw [List.map_map]
    have hcong : ∀ ch ∈ m3u, (Prod.fst ∘ fun ch =>
        if reconciledFor mapping progsOpt ch.tvg_id ≠ [] then
          (ch, (reconciledFor mapping progsOpt ch.tvg_id).map
            (rekeyEv ch.tvg_id))
        else (ch, placeholders hours (floorHour now) ch.tvg_id ch.name)) ch =
          id ch := by
      intro ch _
      by_cases h : reconciledFor mapping progsOpt ch.tvg_id = [] <;>
        simp [h]
    rw [List.map_congr_left hcong, List.map_id]
  · intro i ch hch
    by_cases h : reconciledFor mapping progsOpt ch.tvg_id = []
    · exact ⟨placeholders hours (floorHour now) ch.tvg_id ch.name,
        by simp [build_final_epg, List.getElem?_map, hch, h],
        Or.inr ⟨h, rfl⟩⟩
    · exact ⟨(reconciledFor mapping progsOpt ch.tvg_id).map
          (rekeyEv ch.tvg_id),
        by simp [build_final_epg, List.getElem?_map, hch, h],
        Or.inl ⟨h, rfl⟩⟩

/-- C1, witness for the amended theorem at a concrete input. -/
theorem c1_build_final_epg_complete_witness :
    ([(⟨"a", "A"⟩ : M3uChannel)][0]? = some ⟨"a", "A"⟩) ∧
    (∃ evs, (build_final_epg [⟨"a", "A"⟩] none [] 3 0)[0]? =
        some (⟨"a", "A"⟩, evs) ∧
      ((reconciledFor [] none "a" ≠ [] ∧
        evs = (reconciledFor [] none "a").map (rekeyEv "a")) ∨
       (reconciledFor [] none "a" = [] ∧
        evs = placeholders 3 (floorHour 0) "a" "A"))) :=
  ⟨by decide,
    (c1_build_final_epg_complete [⟨"a", "A"⟩] none [] 3 0).2 0 ⟨"a", "A"⟩
      (by decide)⟩

/-! ## Claim C2 -/

/-- C2, counterexample: the claim asserts that for a matched playlist
channel every emitted schedule entry carries the playlist channel's own
identifier, never the EPG id.  In the auto variant the playlist id
`"Globo-SP"` matches the EPG channel `"globo.sp"` exactly (both normalize
to `"globosp"`), yet the emitted programme keeps the EPG channel key
`"globo.sp"`, which differs from the playlist identifier. -/
theorem c2_auto_no_rekey :
    norm_id "Globo-SP" = norm_id "globo.sp" ∧
    auto_main ["Globo-SP"]
      [.chan ⟨"globo.sp", "Globo"⟩, .prog ⟨"globo.sp", 0, 3600, "T", "D"⟩]
      (mkRat 72 100) =
      ([⟨"globo.sp", "Globo"⟩], [⟨"globo.sp", 0, 3600, "T", "D"⟩]) ∧
    "globo.sp" ≠ "Globo-SP" := by
  decide

/-- C2, amended: the re-keying claim holds for `epg_generator.py`: for
a matched channel `build_final_epg` emits exactly the mapped events, each
with its channel key rewritten to the playlist `tvg_id` and its start,
stop, title and description copied verbatim from the source entry.  The
auto variant instead passes entries through under the EPG's original
channel id. -/
theorem c2_reconciler_rekeys :
    (∀ (tvg : String) (ev : Programme),
      (rekeyEv tvg ev).channel = tvg ∧ (rekeyEv tvg ev).start = ev.start ∧
      (rekeyEv tvg ev).stop = ev.stop ∧ (rekeyEv tvg ev).title = ev.title ∧
      (rekeyEv tvg ev).desc = ev.desc) ∧
    (∀ (tvg : String) (evs : List Programme) (e : Programme),
      e ∈ evs.map (rekeyEv tvg) →
      e.channel = tvg ∧ ∃ src ∈ evs, e.start = src.start ∧
        e.stop = src.stop ∧ e.title = src.title ∧ e.desc = src.desc) ∧
    (∀ (m3u : List M3uChannel) (ps : List Programme)
      (mapping : List (String × (Option String × ℚ))) (hours : Nat)
      (now : Int) (i : Nat) (ch : M3uChannel),
      m3u[i]? = some ch →
      reconciledFor mapping (some ps) ch.tvg_id ≠ [] →
      (build_final_epg m3u (some ps) mapping hours now)[i]? =
        some (ch, (reconciledFor mapping (some ps) ch.tvg_id).map
          (rekeyEv ch.tvg_id))) := by
  refine ⟨?_, ?_, ?_⟩
  · intro tvg ev
    exact ⟨rfl, rfl, rfl, rfl, rfl⟩
  · intro tvg evs e he
    rcases List.mem_map.mp he with ⟨src, hsrc, rfl⟩
    exact ⟨rfl, src, hsrc, rfl, rfl, rfl, rfl⟩
  · intro m3u ps mapping hours now i ch hch hne
    simp [build_final_epg, List.getElem?_map, hch, hne]

/-- C2, witness for the amended theorem at a concrete input. -/
theorem c2_reconciler_rekeys_witness :
    ((⟨"k", 5, 9, "t", "d"⟩ : Programme) ∈
        [(⟨"c", 5, 9, "t", "d"⟩ : Programme)].map (rekeyEv "k")) ∧
    ((⟨"k", 5, 9, "t", "d"⟩ : Programme).channel = "k" ∧
      ∃ src ∈ [(⟨"c", 5, 9, "t", "d"⟩ : Programme)],
        (⟨"k", 5, 9, "t", "d"⟩ : Programme).start = src.start ∧
        (⟨"k", 5, 9, "t", "d"⟩ : Programme).stop = src.stop ∧
        (⟨"k", 5, 9, "t", "d"⟩ : Programme).title = src.title ∧
        (⟨"k", 5, 9, "t", "d"⟩ : Programme).desc = src.desc) :=
  ⟨by decide,
    c2_reconciler_rekeys.2.1 "k" [⟨"c", 5, 9, "t", "d"⟩]
      ⟨"k", 5, 9, "t", "d"⟩ (by decide)⟩

/-! ## Claim C3 -/

/-- C3, counterexample: the claim asserts that a playlist channel whose
normalized key is present verbatim in the candidate index is resolved by
the exact strategy without ever evaluating fuzzy.  In `epg_generator.py`
the exact strategy compares raw tvg-ids case-insensitively instead: here
the playlist channel's normalized key `"globo sp"` is verbatim among the
candidate keys, yet the exact-id loop fails (no EPG id equals
`"Globo-SP"`), and the match is produced by the fuzzy scan
(`channel_best` reduces to `channel_fuzzy`). -/
theorem c3_fuzzy_runs_despite_exact_key :
    normalize_name "Globo SP" ∈
      (candidates [⟨"eid1", "Globo SP"⟩]).map Prod.snd ∧
    exact_id_match "Globo-SP" [⟨"eid1", "Globo SP"⟩] = none ∧
    channel_best ⟨"Globo-SP", "Globo SP"⟩ [⟨"eid1", "Globo SP"⟩] =
      channel_fuzzy (normalize_name "Globo SP")
        (candidates [⟨"eid1", "Globo SP"⟩]) ∧
    build_mapping [⟨"Globo-SP", "Globo SP"⟩] [⟨"eid1", "Globo SP"⟩]
        (mkRat 6 10) =
      [("Globo-SP", (some "eid1", 1))] := by
  decide

/-- C3, amended: exact-key precedence does hold in the auto variant: a
playlist id whose normalized key is present verbatim in the index is
matched to that key by the exact strategy, for every threshold and
whatever the other candidates are — the fuzzy strategy cannot influence
the result.  In `epg_generator.py` the exact strategy instead compares
raw tvg-ids case-insensitively, and the fuzzy scan is evaluated whenever
that comparison fails, even though the normalized key is in the index. -/
theorem c3_auto_exact_precedence (ids : List (String × String))
    (cmap : List (String × EpgChannelEl)) (thr : ℚ) (raw norm : String)
    (hmem : (raw, norm) ∈ ids) (hhas : dictHas cmap norm = true) :
    dictGet (auto_match ids cmap thr) norm = some norm := by
  unfold auto_match
  refine auto_match_fold_key cmap thr norm norm ?_ ids []
    (Or.inr ⟨raw, hmem⟩)
  intro acc raw2
  simp [auto_match_step, hhas, dictGet_dictSet_self]

/-- C3, witness for the amended theorem at a concrete input. -/
theorem c3_auto_exact_precedence_witness :
    (("G", "g") ∈ [("G", "g")]) ∧
    dictHas [("g", (⟨"G", "n"⟩ : EpgChannelEl))] "g" = true ∧
    dictGet (auto_match [("G", "g")] [("g", ⟨"G", "n"⟩)] (mkRat 9 10)) "g" =
      some "g" :=
  ⟨by decide, by decide,
    c3_auto_exact_precedence [("G", "g")] [("g", ⟨"G", "n"⟩)] (mkRat 9 10)
      "G" "g" (by decide) (by decide)⟩

/-! ## Claim C7 -/

/-- C7, counterexample: the claim asserts that reconciled entries are
emitted in source-document order with no re-sorting.  In
`epg_generator.py` the parser sorts each channel's events by start time:
with the later programme first in the document, the pipeline emits the
earlier one first — the emitted order differs from document order. -/
theorem c7_events_sorted_not_doc_order :
    build_final_epg [⟨"tv1", "TV One"⟩]
      (some [⟨"c", 200, 300, "late", ""⟩, ⟨"c", 100, 150, "early", ""⟩])
      [("tv1", (some "c", 1))] 48 0 =
      [(⟨"tv1", "TV One"⟩,
        [⟨"tv1", 100, 150, "early", ""⟩, ⟨"tv1", 200, 300, "late", ""⟩])] ∧
    ([(⟨"c", 200, 300, "late", ""⟩ : Programme),
        ⟨"c", 100, 150, "early", ""⟩].map (rekeyEv "tv1") =
      [⟨"tv1", 200, 300, "late", ""⟩, ⟨"tv1", 100, 150, "early", ""⟩]) ∧
    ([(⟨"tv1", 100, 150, "early", ""⟩ : Programme),
        ⟨"tv1", 200, 300, "late", ""⟩] ≠
      [⟨"tv1", 200, 300, "late", ""⟩, ⟨"tv1", 100, 150, "early", ""⟩]) := by
  decide

/-- C7, amended: for every matched channel the emitted entries are the
source entries sorted stably by ascending start time, not raw document
order; the rest of the claim stands: nothing is de-duplicated or
validated away — the emitted list is a permutation of all of the
channel's source entries (entries with `stop ≤ start` included), and
entries with equal start keep their document order. -/
theorem c7_events_sorted_stable (progs : List Programme) (c : String)
    (hc : c ≠ "") :
    (eventsFor progs c).Perm (progs.filter (fun p => p.channel == c)) ∧
    (eventsFor progs c).Pairwise (fun a b => a.start ≤ b.start) ∧
    (∀ t : Int, (eventsFor progs c).filter (fun p => p.start == t) =
      (progs.filter (fun p => p.channel == c)).filter
        (fun p => p.start == t)) := by
  rw [eventsFor_eq_sort progs c hc]
  exact ⟨sortByStart_perm _, pairwise_sortByStart _,
    fun t => filter_start_sortByStart t _⟩

/-- C7, witness for the amended theorem at a concrete input. -/
theorem c7_events_sorted_stable_witness :
    ("c" ≠ "") ∧
    (eventsFor [⟨"c", 200, 300, "late", ""⟩, ⟨"c", 100, 150, "early", ""⟩]
        "c").Perm
      ([(⟨"c", 200, 300, "late", ""⟩ : Programme),
          ⟨"c", 100, 150, "early", ""⟩].filter (fun p => p.channel == "c")) :=
  ⟨by decide,
    (c7_events_sorted_stable
      [⟨"c", 200, 300, "late", ""⟩, ⟨"c", 100, 150, "early", ""⟩] "c"
      (by decide)).1⟩

/-! ## Claim C9 -/

/-- C9: both fuzzy matchers are deterministic first-argmax selections
with ties broken by earliest index-insertion order.  Whenever
`best_fuzzy_match` returns a candidate (for a positive threshold), that
candidate splits the candidate list so that every earlier candidate
scores strictly lower and every later candidate scores no higher — so a
tie at the maximum ratio is always resolved to the candidate appearing
first.  The fuzzy loop of `build_mapping` satisfies the same
characterization, with empty-keyed candidates skipped. -/
theorem c9_fuzzy_first_argmax :
    (∀ (target : String) (cands : List String) (thr : ℚ) (res : String),
      0 < thr → best_fuzzy_match target cands thr = some res →
      ∃ l1 l2, cands = l1 ++ res :: l2 ∧ thr ≤ simRatio target res ∧
        (∀ x ∈ l1, simRatio target x < simRatio target res) ∧
        (∀ x ∈ l2, simRatio target x ≤ simRatio target res)) ∧
    (∀ (norm : String) (cands : List (String × String)) (eid : String)
      (s : ℚ),
      channel_fuzzy norm cands = (some eid, s) →
      ∃ l1 cand l2, cands = l1 ++ cand :: l2 ∧ cand.1 = eid ∧
        cand.2 ≠ "" ∧ s = simRatio norm cand.2 ∧ 0 < s ∧
        (∀ x ∈ l1, x.2 ≠ "" → simRatio norm x.2 < s) ∧
        (∀ x ∈ l2, x.2 ≠ "" → simRatio norm x.2 ≤ s)) := by
  constructor
  · intro target cands thr res hthr hres
    unfold best_fuzzy_match at hres
    rcases bfm_fold_spec target cands "" 0 with
      ⟨heq, hle⟩ | ⟨l1, c, l2, hsplit, heq, hlt, h1, h2⟩
    · rw [heq] at hres
      have hnot : ¬ (((("" : String), (0 : ℚ)).2) ≥ thr) := not_le.mpr hthr
      rw [if_neg hnot] at hres
      exact absurd hres (by simp)
    · rw [heq] at hres
      by_cases hge : (c, simRatio target c).2 ≥ thr
      · rw [if_pos hge] at hres
        have hc : c = res := Option.some.inj hres
        subst hc
        exact ⟨l1, l2, hsplit, hge, h1, h2⟩
      · rw [if_neg hge] at hres
        exact absurd hres (by simp)
  · intro norm cands eid s hres
    unfold channel_fuzzy at hres
    rcases channel_fuzzy_fold_spec norm cands none 0 with
      ⟨heq, hle⟩ | ⟨l1, c, l2, hsplit, hcne, heq, hlt, h1, h2⟩
    · rw [heq] at hres
      exact absurd hres (by simp)
    · rw [heq] at hres
      obtain ⟨he, hs⟩ := Prod.mk.inj hres
      have he' : c.1 = eid := Option.some.inj he
      refine ⟨l1, c, l2, hsplit, he', hcne, hs.symm, ?_, ?_, ?_⟩
      · rw [← hs]; exact hlt
      · intro x hx hxne
        rw [← hs]; exact h1 x hx hxne
      · intro x hx hxne
        rw [← hs]; exact h2 x hx hxne

/-- C9, witness: the theorem applied to a concrete tie — two candidates
share the maximum ratio and the first one is selected. -/
theorem c9_fuzzy_first_argmax_witness :
    ((0 : ℚ) < mkRat 1 2) ∧
    simRatio "ab" "ax" = simRatio "ab" "ay" ∧
    best_fuzzy_match "ab" ["ax", "ay"] (mkRat 1 2) = some "ax" ∧
    (∃ l1 l2, ["ax", "ay"] = l1 ++ "ax" :: l2 ∧
      mkRat 1 2 ≤ simRatio "ab" "ax" ∧
      (∀ x ∈ l1, simRatio "ab" x < simRatio "ab" "ax") ∧
      (∀ x ∈ l2, simRatio "ab" x ≤ simRatio "ab" "ax")) :=
  ⟨by decide, by decide, by decide,
    c9_fuzzy_first_argmax.1 "ab" ["ax", "ay"] (mkRat 1 2) "ax"
      (by decide) (by decide)⟩

/-! ## Claim C10 -/

/-- C10: the auto variant implements a fourth matching strategy absent
from the spec's chain: when a playlist id's normalized key is not in the
index and the best fuzzy ratio is below the threshold, but stripping the
key's trailing decimal digits yields a non-empty key present verbatim in
the index, the channel is matched to that digit-stripped key. -/
theorem c10_digit_strip_fallback (ids : List (String × String))
    (cmap : List (String × EpgChannelEl)) (thr : ℚ) (raw norm : String)
    (hmem : (raw, norm) ∈ ids)
    (habs : dictHas cmap norm = false)
    (hfuzz : best_fuzzy_match norm (dictKeys cmap) thr = none)
    (halt : stripTrailingDigits norm ≠ "")
    (hhas : dictHas cmap (stripTrailingDigits norm) = true) :
    dictGet (auto_match ids cmap thr) norm =
      some (stripTrailingDigits norm) := by
  unfold auto_match
  refine auto_match_fold_key cmap thr norm (stripTrailingDigits norm) ?_
    ids [] (Or.inr ⟨raw, hmem⟩)
  intro acc raw2
  simp [auto_match_step, habs, hfuzz, halt, hhas, dictGet_dictSet_self]

/-- C10, witness for the theorem at a concrete input: `"xyz12"` misses
the index and scores `3/4 < 4/5` against `"xyz"`, but digit-stripping
finds `"xyz"` exactly. -/
theorem c10_digit_strip_fallback_witness :
    (("XYZ12", "xyz12") ∈ [("XYZ12", "xyz12")]) ∧
    dictHas [("xyz", (⟨"XYZ", "X"⟩ : EpgChannelEl))] "xyz12" = false ∧
    best_fuzzy_match "xyz12"
      (dictKeys [("xyz", (⟨"XYZ", "X"⟩ : EpgChannelEl))]) (mkRat 8 10) =
      none ∧
    stripTrailingDigits "xyz12" ≠ "" ∧
    dictHas [("xyz", (⟨"XYZ", "X"⟩ : EpgChannelEl))]
      (stripTrailingDigits "xyz12") = true ∧
    dictGet (auto_match [("XYZ12", "xyz12")] [("xyz", ⟨"XYZ", "X"⟩)]
        (mkRat 8 10)) "xyz12" =
      some (stripTrailingDigits "xyz12") :=
  ⟨by decide, by decide, by decide, by decide, by decide,
    c10_digit_strip_fallback [("XYZ12", "xyz12")] [("xyz", ⟨"XYZ", "X"⟩)]
      (mkRat 8 10) "XYZ12" "xyz12" (by decide) (by decide) (by decide)
      (by decide) (by decide)⟩

end Epg
